import Mathlib

/-!
Verification development for the signal-history / temporal-query engine of
`amaranth_testbench` (file `src/amaranth_testbench/history.py`).

The `History` elaboratable tracks, for every registered signal, an absolute
per-cycle history store, a shift-accumulated relative "past" register, and
rise/fall edge traces and accumulators.  Query-builder methods (`past`,
`pastSequenceWas`, `rose`, `isEver`, ...) return expressions over those
registers.  We model one tracker with one tracked signal:

* the runtime registers become an explicit `HState`,
* the update logic that `History.elaborate` emits becomes the transition
  function `History.step` (one active clock edge), with `History.reach`
  iterating it from the reset state,
* every query builder becomes a function returning a `QResult`:
  `raised` models a Python exception at build time, `nothing` models a
  silent Python `None` return, and `value e` a real expression, embedded
  as its evaluation function on a state and the signal's current value.

Bit-vector registers are natural numbers reduced modulo `2 ^ width` where
the hardware would truncate; slicing is shift-and-mask arithmetic.
-/

namespace History

/-- Evaluation of an amaranth expression produced by a query builder: a
function of the tracker's register state and of the tracked signal's
current (pre-edge) value.  Boolean-shaped expressions evaluate to 0 or 1,
exactly like 1-bit vectors. -/
def HExpr (σ : Type) : Type := σ → Nat → Nat

/-- Result of running one Python query-builder method: it can raise a
build-time exception (`raised`), silently return `None` (`nothing`), or
return an expression (`value`). -/
inductive QResult (α : Type) where
  | raised : QResult α
  | nothing : QResult α
  | value : α → QResult α

/-- `true` exactly on the `raised` constructor. -/
def QResult.isRaised : QResult α → Bool
  | .raised => true
  | _ => false

/-- Runtime registers of one tracker holding one tracked signal of width
`W` under window `N`:  `cycle` is `Signal(range(N+1))`, `cyclespassed` the
N-bit reached bitmap, `history t` the absolute store register `st{t}`,
`past` the `W*N`-bit shift accumulator, and the six rise/fall registers of
`RiseFallPast` (1-bit flags and N-bit trace/past vectors). -/
structure HState where
  cycle : Nat
  cyclespassed : Nat
  history : Nat → Nat
  past : Nat
  rose : Nat
  fell : Nat
  rose_trace : Nat
  fell_trace : Nat
  rose_past : Nat
  fell_past : Nat

/-- Static configuration of the modelled tracker: signal width, window
size (`numCyclesToTrack`), and the two per-signal bookkeeping flags that
record whether a past-type / rise-fall-type query was built before
elaboration (they decide which update logic `elaborate` emits). -/
structure HParams where
  width : Nat
  numCyclesToTrack : Nat
  usingPast : Bool
  usingRiseFallPast : Bool

/-- Fuel-driven helper for `bitLen` (structural recursion so that concrete
values reduce). -/
def bitLenAux : Nat → Nat → Nat
  | 0, _ => 0
  | fuel + 1, n => if n = 0 then 0 else bitLenAux fuel (n / 2) + 1

/-- Number of binary digits of `n`: the width amaranth gives the signal
`Signal(range(n + 1))`, i.e. the width of the cycle counter register for a
window of `n` cycles. -/
def bitLen (n : Nat) : Nat := bitLenAux n n

/-- Reset state: every register of an amaranth module resets to zero. -/
def reset : HState :=
  { cycle := 0, cyclespassed := 0, history := fun _ => 0, past := 0
    rose := 0, fell := 0, rose_trace := 0, fell_trace := 0
    rose_past := 0, fell_past := 0 }

/-- One active clock edge of the update logic emitted by
`History.elaborate` for a single tracked signal, with `v` the signal's
value during the elapsing cycle.  Faithfully renders, in amaranth's
last-assignment-wins order: the `If(started)` tick counter, the
`If(~started)` zeroing of all past/edge registers, and for the matching
`If(cycle == t)` branch the reached bit, the absolute store write, the
shift-accumulate of `past` (when `usingPast`), and the rise/fall logic
(when `usingRiseFallPast` and `t >= 1`). -/
def step (P : HParams) (st : HState) (v : Nat) : HState :=
  let W := P.width
  let N := P.numCyclesToTrack
  let vm := v % 2 ^ W
  let stt := st.cyclespassed.testBit 0
  let c := st.cycle
  -- registers not re-assigned by the active `cycle == t` branch keep their
  -- value when started, and are zeroed by the `If(~started)` block otherwise
  let base : Nat → Nat := fun x => if stt then x else 0
  let edgeActive := P.usingRiseFallPast ∧ 1 ≤ c ∧ c < N
  let prevTrue := st.history (c - 1) ≠ 0
  let curTrue := vm ≠ 0
  let riseNow := curTrue ∧ ¬ prevTrue
  let fallNow := (¬ curTrue) ∧ prevTrue
  { cycle := if stt then (c + 1) % 2 ^ bitLen N else 1 % 2 ^ bitLen N
    cyclespassed :=
      (if stt then st.cyclespassed else st.cyclespassed ||| 1) |||
        (if c < N then 1 <<< c else 0)
    history := fun t => if c = t ∧ c < N then vm else st.history t
    past :=
      if P.usingPast ∧ c < N then ((st.past <<< W) ||| vm) % 2 ^ (W * N)
      else base st.past
    rose := if edgeActive then (if riseNow then 1 else 0) else base st.rose
    fell := if edgeActive then (if fallNow then 1 else 0) else base st.fell
    rose_trace :=
      if edgeActive ∧ riseNow then base st.rose_trace ||| (1 <<< c)
      else base st.rose_trace
    fell_trace :=
      if edgeActive ∧ fallNow then base st.fell_trace ||| (1 <<< c)
      else base st.fell_trace
    rose_past :=
      if edgeActive then
        ((st.rose_past <<< 1) ||| (if riseNow then 1 else 0)) % 2 ^ N
      else base st.rose_past
    fell_past :=
      if edgeActive then
        ((st.fell_past <<< 1) ||| (if fallNow then 1 else 0)) % 2 ^ N
      else base st.fell_past }

/-- State after `n` active clock edges from reset, the signal holding
value `inp m` during the cycle elapsing at edge `m`. -/
def reach (P : HParams) (inp : Nat → Nat) : Nat → HState
  | 0 => reset
  | n + 1 => step P (reach P inp n) (inp n)

/-- Process-wide `History.MinCapacity`: starts at the arbitrarily huge
`1e6` and is min-updated by every tracker constructed in the process. -/
def coordMin (windows : List Nat) : Nat := windows.foldl min 1000000

/-- Process-wide `History.MaxCapacity`: starts at 0, max-updated at every
construction; the `Assume` is emitted whenever it is nonzero. -/
def coordMax (windows : List Nat) : Nat := windows.foldl max 0

/-- Reachable states of the elaborated logic: traces from reset in which
every visited state satisfies the emitted process-wide assumption
`Assume(cycle < History.MinCapacity)` (states outside it are discarded
from bounded analysis by the solver). -/
def Reachable (P : HParams) (inp : Nat → Nat) (bound : Nat) (s : HState) : Prop :=
  ∃ n, s = reach P inp n ∧ ∀ m, m ≤ n → (reach P inp m).cycle < bound

/- ### expression-building helpers (amaranth value operators) -/

/-- amaranth `x[a:b]` on an unsigned value: drop `a` low bits, keep `b - a`. -/
def sliceFromTo (x a b : Nat) : Nat := (x >>> a) % 2 ^ (b - a)

/-- amaranth single-bit index `x[i]`. -/
def bitAt (x i : Nat) : Nat := (x >>> i) % 2

/-- `.bool()` cast of a value. -/
def sbool (x : Nat) : Nat := if x = 0 then 0 else 1

/-- 1-bit equality comparison `x == y`. -/
def beq (x y : Nat) : Nat := if x = y then 1 else 0

/-- 1-bit unsigned comparison `x >= y`. -/
def bge (x y : Nat) : Nat := if x ≥ y then 1 else 0

/-- `sliceStart`: bit offset of the block for step index `cycleNum`, for a
signal of width `ssize`. -/
def sliceStart (ssize cycleNum : Nat) : Nat := cycleNum * ssize

/-- `sliceEnd`: one past the last bit of that block. -/
def sliceEnd (ssize cycleNum : Nat) : Nat := sliceStart ssize cycleNum + ssize

/-- Map a function over a returned expression, propagating `raised` and
`nothing` unchanged. -/
def qmap (f : HExpr HState → HExpr HState) :
    QResult (HExpr HState) → QResult (HExpr HState)
  | .raised => .raised
  | .nothing => .nothing
  | .value e => .value (f e)

/-- Evaluate a built expression on a state and current signal value;
defaults to 0 when no expression was returned. -/
def qNum : QResult (HExpr HState) → HState → Nat → Nat
  | .value e, st, v => e st v
  | _, _, _ => 0

/- ### query builders -/

/-- `History.valueAt`: the register holding the signal's value at absolute
cycle `cycleNum`.  Raises (`ValueError`) past the capacity check, and also
raises (`IndexError`) at `cycleNum = N`, since the per-signal store list
has exactly `N` entries. -/
def valueAt (N cycleNum : Nat) : QResult (HExpr HState) :=
  if cycleNum > N then .raised
  else if cycleNum < N then .value fun st _ => st.history cycleNum
  else .raised

/-- `History.cyclePassed`: the reached bit for cycle `cycleNum`. -/
def cyclePassed (N cycleNum : Nat) : QResult (HExpr HState) :=
  if cycleNum > N then .raised
  else .value fun st _ => bitAt st.cyclespassed cycleNum

/-- `History.started` property: `cyclePassed(0)`, i.e. `cyclespassed[0]`. -/
def startedE : HExpr HState := fun st _ => bitAt st.cyclespassed 0

/-- `History.past`: the value of the signal `stepsAgo` cycles ago, as the
slice `[ (stepsAgo-1)*W, stepsAgo*W )` of the shift accumulator. -/
def past (W N stepsAgo : Nat) : QResult (HExpr HState) :=
  if stepsAgo < 1 then .raised
  else if stepsAgo > N then .raised
  else
    let sstart := sliceStart W (stepsAgo - 1)
    let send := sliceEnd W (stepsAgo - 1)
    if sstart ≥ W * N ∨ send > W * N then .raised
    else .value fun st _ => sliceFromTo st.past sstart send

/-- `History.pastTrue`: `past` evaluated as a boolean. -/
def pastTrue (W N stepsAgo : Nat) : QResult (HExpr HState) :=
  qmap (fun e st v => sbool (e st v)) (past W N stepsAgo)

/-- `History.pastFalse`: negated boolean cast of `past`. -/
def pastFalse (W N stepsAgo : Nat) : QResult (HExpr HState) :=
  qmap (fun e st v => 1 - sbool (e st v)) (past W N stepsAgo)

/-- `History.pastSequence`: the accumulator slice spanning the most recent
`numStepsBackWidth` steps (delegates to `past` when the width is < 2). -/
def pastSequence (W N numStepsBackWidth : Nat) : QResult (HExpr HState) :=
  if numStepsBackWidth < 2 then past W N numStepsBackWidth
  else if numStepsBackWidth > N then .raised
  else
    let sstart := sliceStart W 0
    let send := sliceEnd W (numStepsBackWidth - 1)
    .value fun st _ => sliceFromTo st.past sstart send

/-- Loop body of `History.orderPastSignalStatesLastToEarliest`: OR value
`i` of the list, masked to the signal width (the loop-built mask equals
`2^W - 1`), into bit offset `W*i`. -/
def packFrom (W i : Nat) : List Nat → Nat
  | [] => 0
  | vh :: rest => ((vh &&& (2 ^ W - 1)) <<< (W * i)) ||| packFrom W (i + 1) rest

/-- `History.orderPastSignalStatesLastToEarliest`. -/
def orderPastSignalStatesLastToEarliest (W : Nat) (vals : List Nat) : Nat :=
  packFrom W 0 vals

/-- `History.orderPastSignalStatesEarliestToLast`: reverse, then pack. -/
def orderPastSignalStatesEarliestToLast (W : Nat) (vals : List Nat) : Nat :=
  orderPastSignalStatesLastToEarliest W vals.reverse

/-- `History.pastSequenceWas`: gated comparison of the accumulator slice
spanning `len(values) + 1` steps against the packed expected values; with
an empty list the `if numValues` guard fails and the method silently
returns `None`. -/
def pastSequenceWas (W N : Nat) (valuesFromEarliestToMostRecent : List Nat) :
    QResult (HExpr HState) :=
  let massagedSequenceAsValue :=
    orderPastSignalStatesEarliestToLast W valuesFromEarliestToMostRecent
  let numValues := valuesFromEarliestToMostRecent.length
  let numStepsBack := numValues + 1
  if numValues ≠ 0 then
    match pastSequence W N numStepsBack with
    | .raised => .raised
    | .nothing => .nothing
    | .value e => .value fun st v =>
        bge st.cycle numValues &&& beq (e st v) massagedSequenceAsValue
  else .nothing

/-- `History.pastWasConstant`: `pastSequenceWas` on a repeated value. -/
def pastWasConstant (W N value numCycles : Nat) : QResult (HExpr HState) :=
  pastSequenceWas W N (List.replicate numCycles value)

/-- `History.wasConstant`: `pastSequenceWas` on a repeated value. -/
def wasConstant (W N value numCyclesBack : Nat) : QResult (HExpr HState) :=
  pastSequenceWas W N (List.replicate numCyclesBack value)

/-- `History._riseFallPastEvents`: slice of a 1-bit event accumulator from
step `stepsAgo` spanning `includeStepsBack` further steps. -/
def riseFallPastEvents (N : Nat) (eventHistory : HState → Nat)
    (stepsAgo includeStepsBack : Nat) : QResult (HExpr HState) :=
  if stepsAgo < 1 then .raised
  else
    let finalStepBack := stepsAgo + includeStepsBack
    if finalStepBack > N then .raised
    else
      let sstart := sliceStart 1 (stepsAgo - 1)
      let send := sliceEnd 1 (finalStepBack - 1)
      if sstart ≥ N ∨ send > N then .raised
      else .value fun st _ => sliceFromTo (eventHistory st) sstart send

/-- `History.pastRose`: the `stepsAgo`-th slice of `rose_past` (the
`cycle >= stepsAgo` gate is commented out in the source). -/
def pastRose (N stepsAgo : Nat) : QResult (HExpr HState) :=
  riseFallPastEvents N (fun st => st.rose_past) stepsAgo 0

/-- `History.pastFell`: `cycle >= stepsAgo` conjoined with the
`stepsAgo`-th slice of `fell_past`. -/
def pastFell (N stepsAgo : Nat) : QResult (HExpr HState) :=
  qmap (fun e st v => bge st.cycle stepsAgo &&& e st v)
    (riseFallPastEvents N (fun st => st.fell_past) stepsAgo 0)

/-- `History.rose`: with `stepsAgo = 0`, the expression
`started & pastFalse(s) & valueTrue(s)`; otherwise delegates to
`pastRose`. -/
def rose (W N stepsAgo : Nat) : QResult (HExpr HState) :=
  if stepsAgo ≠ 0 then pastRose N stepsAgo
  else
    qmap (fun pf st v => startedE st v &&& pf st v &&& sbool (v % 2 ^ W))
      (pastFalse W N 1)

/-- `History.fell`: with `stepsAgo = 0`, the expression
`pastTrue(s) & valueFalse(s)` — without the `started` gate `rose`
applies; otherwise delegates to `pastFell`. -/
def fell (W N stepsAgo : Nat) : QResult (HExpr HState) :=
  if stepsAgo ≠ 0 then pastFell N stepsAgo
  else
    qmap (fun pt st v => pt st v &&& (1 - sbool (v % 2 ^ W)))
      (pastTrue W N 1)

/-- Python `range(a, b)` with a possibly negative or clamped stop. -/
def pyRange (a : Nat) (b : Int) : List Nat :=
  (List.range (b - (a : Int)).toNat).map (a + ·)

/-- Loop body of `History.isEver`: OR the next `valueAt(s, i) == value`
comparison into the accumulated expression (`None` accumulator on the
first iteration), propagating any `valueAt` exception. -/
def isEverStep (N value : Nat) (acc : QResult (HExpr HState)) (i : Nat) :
    QResult (HExpr HState) :=
  match acc, valueAt N i with
  | .raised, _ => .raised
  | _, .raised => .raised
  | _, .nothing => .raised   -- unreachable: valueAt never returns None
  | .nothing, .value e => .value fun st v => beq (e st v) value
  | .value b, .value e => .value fun st v => b st v ||| beq (e st v) value

/-- `History.isEver`: OR of `valueAt(s, i) == value` over
`i in range(startCycle, numCycles)` — note the stop really is `numCycles`,
not `startCycle + numCycles`, and an empty range silently returns `None`.
A `None` `numCycles`, or one exceeding capacity, is clamped to
`N - startCycle` (which Python computes as a possibly negative int). -/
def isEver (N value startCycle : Nat) (numCyclesOpt : Option Int) :
    QResult (HExpr HState) :=
  let numCycles : Int :=
    match numCyclesOpt with
    | none => (N : Int) - startCycle
    | some nc =>
        if (startCycle : Int) + nc > (N : Int) then (N : Int) - startCycle
        else nc
  if (startCycle : Int) + numCycles > (N : Int) then .raised
  else (pyRange startCycle numCycles).foldl (isEverStep N value) .nothing

/-- `History.isNever`: `~(isEver(...))` — negating the silent `None` of an
empty range is itself a build-time `TypeError`. -/
def isNever (N value startCycle : Nat) (numCyclesOpt : Option Int) :
    QResult (HExpr HState) :=
  match isEver N value startCycle numCyclesOpt with
  | .value e => .value fun st v => 1 - e st v
  | _ => .raised

/-- Loop body of `History.followsSequence`: AND the next
`valueAt(s, startCycle + j) == values[j]` comparison into the accumulated
expression, propagating `valueAt` exceptions and raising (`IndexError`)
when `values` runs out. -/
def followsSequenceStep (N : Nat) (values : List Nat) (startCycle : Nat)
    (acc : QResult (HExpr HState)) (j : Nat) : QResult (HExpr HState) :=
  match acc, valueAt N (startCycle + j), values.get? j with
  | .raised, _, _ => .raised
  | _, .raised, _ => .raised
  | _, _, none => .raised
  | _, .nothing, _ => .raised   -- unreachable: valueAt never returns None
  | .nothing, .value e, some w => .value fun st v => beq (e st v) w
  | .value b, .value e, some w => .value fun st v => b st v &&& beq (e st v) w

/-- `History.followsSequence`: AND of `valueAt(s, i) == values[vIdx]` over
`i in range(startCycle, startCycle + numCycles)`; a zero or `None`
`numCycles` falls back to `len(values)`, and indexing `values` beyond its
length is a build-time `IndexError`. -/
def followsSequence (N : Nat) (values : List Nat) (startCycle : Nat)
    (numCyclesOpt : Option Nat) : QResult (HExpr HState) :=
  let numCycles :=
    match numCyclesOpt with
    | none => values.length
    | some nc => if nc = 0 then values.length else nc
  let endTick := startCycle + numCycles
  if startCycle ≥ endTick then .raised
  else if startCycle + numCycles > N then .raised
  else
    let folded : QResult (HExpr HState) :=
      (List.range numCycles).foldl (followsSequenceStep N values startCycle)
        .nothing
    match folded with
    | .nothing => .raised   -- 'History got nothing from valueAt sequence?'
    | x => x

/-- `History.isConstant`: `followsSequence` on a repeated value. -/
def isConstant (N value startCycle numCycles : Nat) : QResult (HExpr HState) :=
  followsSequence N (List.replicate numCycles value) startCycle (some numCycles)

/- ### builder-side bookkeeping (mutation performed by the query builders) -/

/-- Generation-time bookkeeping record for one tracked signal
(`SignalHistory` fields read and written by the builders). -/
structure SignalRecord where
  width : Nat
  numCyclesToTrack : Nat
  usingPast : Bool
  usingRiseFallPast : Bool
  deriving DecidableEq

/-- `History.past` as a builder acting on the bookkeeping record: after
the two initial bounds checks it sets `usingPast` on the signal's record,
then finishes building the slice expression. -/
def pastBuilder (r : SignalRecord) (stepsAgo : Nat) :
    QResult (HExpr HState) × SignalRecord :=
  if stepsAgo < 1 then (.raised, r)
  else if stepsAgo > r.numCyclesToTrack then (.raised, r)
  else
    (past r.width r.numCyclesToTrack stepsAgo, { r with usingPast := true })

/-- `History.pastRose` as a builder: sets `usingRiseFallPast`
unconditionally (before `_riseFallPastEvents` can raise). -/
def pastRoseBuilder (r : SignalRecord) (stepsAgo : Nat) :
    QResult (HExpr HState) × SignalRecord :=
  (pastRose r.numCyclesToTrack stepsAgo, { r with usingRiseFallPast := true })

/-- `History.rose` as a builder: with `stepsAgo = 0` it sets both
`usingRiseFallPast` and `usingPast` before building its expression
(the nested `past` call re-sets `usingPast`); otherwise it delegates to
`pastRose`. -/
def roseBuilder (r : SignalRecord) (stepsAgo : Nat) :
    QResult (HExpr HState) × SignalRecord :=
  if stepsAgo ≠ 0 then pastRoseBuilder r stepsAgo
  else
    (rose r.width r.numCyclesToTrack 0,
      { r with usingRiseFallPast := true, usingPast := true })

/-- `History.valueAt` as a builder: a pure read, no record is touched. -/
def valueAtBuilder (r : SignalRecord) (cycleNum : Nat) :
    QResult (HExpr HState) × SignalRecord :=
  (valueAt r.numCyclesToTrack cycleNum, r)

/-! ### basic facts about `bitLen` and the reset-started counter -/

theorem bitLenAux_zero (f : Nat) : bitLenAux f 0 = 0 := by
  cases f <;> simp [bitLenAux]

theorem bitLenAux_congr : ∀ f1 f2 n, n ≤ f1 → n ≤ f2 →
    bitLenAux f1 n = bitLenAux f2 n := by
  intro f1
  induction f1 with
  | zero =>
    intro f2 n h1 _
    have : n = 0 := Nat.le_zero.mp h1
    subst this
    simp [bitLenAux_zero]
  | succ f ih =>
    intro f2 n h1 h2
    match n with
    | 0 => simp [bitLenAux_zero]
    | n + 1 =>
      match f2, h2 with
      | f2' + 1, _ =>
        simp only [bitLenAux, Nat.succ_ne_zero, if_false]
        rw [ih f2' ((n + 1) / 2) (by omega) (by omega)]

theorem bitLen_succ (n : Nat) (h : 1 ≤ n) : bitLen n = bitLen (n / 2) + 1 := by
  match n, h with
  | n + 1, _ =>
    show bitLenAux (n + 1) (n + 1) = bitLen ((n + 1) / 2) + 1
    simp only [bitLenAux, Nat.succ_ne_zero, if_false]
    rw [bitLenAux_congr n ((n + 1) / 2) ((n + 1) / 2) (by omega) (by omega)]
    rfl

theorem lt_two_pow_bitLen : ∀ n, n < 2 ^ bitLen n := by
  intro n
  induction n using Nat.strong_induction_on with
  | _ n ih =>
    match n with
    | 0 => decide
    | n + 1 =>
      rw [bitLen_succ (n + 1) (by omega)]
      have h1 := ih ((n + 1) / 2) (by omega)
      have h2 : 2 ^ (bitLen ((n + 1) / 2) + 1) = 2 * 2 ^ bitLen ((n + 1) / 2) := by
        ring
      omega

theorem started_reach (P : HParams) (inp : Nat → Nat) :
    ∀ n, (reach P inp n).cyclespassed.testBit 0 = decide (1 ≤ n) := by
  intro n
  induction n with
  | zero => simp [reach, reset]
  | succ n ih =>
    simp only [reach, step, Nat.testBit_or]
    by_cases h : 1 ≤ n
    · have h2 : (reach P inp n).cyclespassed % 2 = 1 := by
        have h3 := ih
        simp [h] at h3
        exact h3
      rw [ih]
      simp [h, h2]
    · have : n = 0 := by omega
      subst this
      rw [ih]
      simp [Nat.testBit_or]

theorem cycle_reach (P : HParams) (inp : Nat → Nat) :
    ∀ n, (reach P inp n).cycle = n % 2 ^ bitLen P.numCyclesToTrack := by
  intro n
  induction n with
  | zero => simp [reach, reset]
  | succ n ih =>
    simp only [reach, step, started_reach]
    by_cases h : 1 ≤ n
    · rw [decide_eq_true h, if_pos rfl, ih]
      exact Nat.mod_add_mod n (2 ^ bitLen P.numCyclesToTrack) 1
    · have : n = 0 := by omega
      subst this
      simp

/-! ### the shift accumulator -/

theorem testBit_sliceFromTo (x a b i : Nat) :
    (sliceFromTo x a b).testBit i = (decide (i < b - a) && x.testBit (a + i)) := by
  simp [sliceFromTo, Nat.testBit_mod_two_pow, Nat.testBit_shiftRight, Bool.and_comm]

theorem sliceFromTo_zero (a b : Nat) : sliceFromTo 0 a b = 0 := by
  simp [sliceFromTo]

/-- Low block of a freshly shifted-in accumulator: the newest sample. -/
theorem sliceFromTo_shiftIn_low (b v W n : Nat) (hv : v < 2 ^ W) (hWn : W ≤ n) :
    sliceFromTo (((b <<< W) ||| v) % 2 ^ n) 0 W = v := by
  apply Nat.eq_of_testBit_eq
  intro i
  rw [testBit_sliceFromTo]
  by_cases hi : i < W
  · have hin : i < n := by omega
    simp [hi, hin, Nat.testBit_shiftLeft, Nat.not_le.mpr hi]
  · have hvi : v.testBit i = false :=
      Nat.testBit_eq_false_of_lt (lt_of_lt_of_le hv (Nat.pow_le_pow_right (by omega) (by omega)))
    simp [hi, hvi]

/-- Higher block of a freshly shifted-in accumulator: block `a` (at least
one sample up) is block `a - W` of the previous accumulator value. -/
theorem sliceFromTo_shiftIn_high (b v W a n : Nat) (hv : v < 2 ^ W)
    (ha : W ≤ a) (hn : a + W ≤ n) :
    sliceFromTo (((b <<< W) ||| v) % 2 ^ n) a (a + W) =
      sliceFromTo b (a - W) (a - W + W) := by
  apply Nat.eq_of_testBit_eq
  intro i
  rw [testBit_sliceFromTo, testBit_sliceFromTo]
  by_cases hi : i < W
  · have h1 : a + i < n := by omega
    have h2 : W ≤ a + i := by omega
    have hvi : v.testBit (a + i) = false :=
      Nat.testBit_eq_false_of_lt (lt_of_lt_of_le hv (Nat.pow_le_pow_right (by omega) h2))
    have h3 : a + i - W = a - W + i := by omega
    simp [hi, h1, h2, hvi, Nat.testBit_shiftLeft, h3]
  · simp [hi]

/-- Intended contents of the `past` accumulator after `n` edges: each edge
shifts the current (masked) sample into the low bits, truncating to the
register's `W*N` bits. -/
def buildPast (P : HParams) (inp : Nat → Nat) : Nat → Nat
  | 0 => 0
  | n + 1 =>
      ((buildPast P inp n <<< P.width) ||| (inp n % 2 ^ P.width)) %
        2 ^ (P.width * P.numCyclesToTrack)

theorem past_reach (P : HParams) (inp : Nat → Nat) (hup : P.usingPast = true) :
    ∀ n, n ≤ P.numCyclesToTrack → (reach P inp n).past = buildPast P inp n := by
  intro n
  induction n with
  | zero => intro _; rfl
  | succ n ih =>
    intro hle
    have hN : n < 2 ^ bitLen P.numCyclesToTrack :=
      lt_of_lt_of_le (by omega) (le_of_lt (lt_two_pow_bitLen P.numCyclesToTrack))
    have hcN : (reach P inp n).cycle = n := by
      rw [cycle_reach, Nat.mod_eq_of_lt hN]
    simp only [reach, step, buildPast]
    rw [hcN, if_pos ⟨hup, by omega⟩, ih (by omega)]

theorem sliceFromTo_buildPast (P : HParams) (inp : Nat → Nat) :
    ∀ n, n ≤ P.numCyclesToTrack → ∀ k, 1 ≤ k → k ≤ n →
      sliceFromTo (buildPast P inp n) ((k - 1) * P.width) ((k - 1) * P.width + P.width) =
        inp (n - k) % 2 ^ P.width := by
  intro n
  induction n with
  | zero => omega
  | succ n ih =>
    intro hle k hk1 hk2
    have hv : inp n % 2 ^ P.width < 2 ^ P.width :=
      Nat.mod_lt _ (Nat.pos_pow_of_pos _ (by omega))
    by_cases hk : k = 1
    · subst hk
      simp only [buildPast, Nat.zero_mul]
      have hWn : P.width ≤ P.width * P.numCyclesToTrack := by
        calc P.width = P.width * 1 := by ring
        _ ≤ P.width * P.numCyclesToTrack := Nat.mul_le_mul_left _ (by omega)
      simpa using sliceFromTo_shiftIn_low (buildPast P inp n) _ P.width _ hv hWn
    · have hk2' : 2 ≤ k := by omega
      have ha : P.width ≤ (k - 1) * P.width := by
        calc P.width = 1 * P.width := by ring
        _ ≤ (k - 1) * P.width := Nat.mul_le_mul_right _ (by omega)
      have hn' : (k - 1) * P.width + P.width ≤ P.width * P.numCyclesToTrack := by
        have : ((k - 1) + 1) * P.width ≤ P.numCyclesToTrack * P.width :=
          Nat.mul_le_mul_right _ (by omega)
        calc (k - 1) * P.width + P.width = ((k - 1) + 1) * P.width := by ring
        _ ≤ P.numCyclesToTrack * P.width := this
        _ = P.width * P.numCyclesToTrack := by ring
      have hsub : (k - 1) * P.width - P.width = (k - 1 - 1) * P.width := by
        calc (k - 1) * P.width - P.width = (k - 1) * P.width - 1 * P.width := by ring_nf
        _ = (k - 1 - 1) * P.width := by rw [← Nat.sub_mul]
      rw [buildPast, sliceFromTo_shiftIn_high _ _ _ _ _ hv ha hn', hsub]
      have := ih (by omega) (k - 1) (by omega) (by omega)
      have hsub2 : n - (k - 1) = n + 1 - k := by omega
      rw [hsub2] at this
      exact this

/-- The `past` builder with in-range arguments: no exception, and the
expression is the `W`-bit accumulator slice at offset `(k-1)*W`. -/
theorem past_eq_value (W N k : Nat) (hW : 0 < W) (hk1 : 1 ≤ k) (hk2 : k ≤ N) :
    past W N k =
      .value (fun st _ => sliceFromTo st.past ((k - 1) * W) ((k - 1) * W + W)) := by
  have h1 : (k - 1) * W < W * N := by
    calc (k - 1) * W < N * W := (Nat.mul_lt_mul_right hW).mpr (by omega)
    _ = W * N := by ring
  have h2 : (k - 1) * W + W ≤ W * N := by
    calc (k - 1) * W + W = ((k - 1) + 1) * W := by ring
    _ ≤ N * W := Nat.mul_le_mul_right _ (by omega)
    _ = W * N := by ring
  unfold past
  rw [if_neg (by omega), if_neg (by omega),
    if_neg (by simp only [sliceStart, sliceEnd]; omega)]
  rfl

theorem reachable_dest {P : HParams} {inp : Nat → Nat} {bound : Nat} {s : HState}
    (hb : bound ≤ P.numCyclesToTrack) (h : Reachable P inp bound s) :
    ∃ n, n < bound ∧ s = reach P inp n ∧ s.cycle = n := by
  obtain ⟨n, rfl, hall⟩ := h
  have hblt : bound < 2 ^ bitLen P.numCyclesToTrack :=
    lt_of_le_of_lt hb (lt_two_pow_bitLen P.numCyclesToTrack)
  have hn : n < bound := by
    by_contra hge
    push_neg at hge
    have := hall bound hge
    rw [cycle_reach, Nat.mod_eq_of_lt hblt] at this
    omega
  exact ⟨n, hn, rfl, by rw [cycle_reach, Nat.mod_eq_of_lt (by omega)]⟩

theorem coordMin_single_le (N : Nat) : coordMin [N] ≤ N := by
  simp [coordMin]

theorem qNum_value (e : HExpr HState) (st : HState) (v : Nat) :
    qNum (.value e) st v = e st v := rfl

/-! ### edge-tracker invariants -/

/-- A 1-bit slice of an accumulator is its bit. -/
theorem sliceFromTo_bit (x a : Nat) :
    sliceFromTo x (a * 1) (a * 1 + 1) = if x.testBit a then 1 else 0 := by
  have h : sliceFromTo x (a * 1) (a * 1 + 1) = (x >>> a) % 2 := by
    simp [sliceFromTo]
  rw [h, Nat.testBit_to_div_mod, Nat.shiftRight_eq_div_pow]
  rcases Nat.mod_two_eq_zero_or_one (x / 2 ^ a) with h2 | h2 <;> simp [h2]

/-- Each clock edge shifts a 1 into at most one of the two event
accumulators, so no bit position is ever set in both. -/
theorem rose_fell_past_disjoint (P : HParams) (inp : Nat → Nat) :
    ∀ n i, ((reach P inp n).rose_past.testBit i &&
      (reach P inp n).fell_past.testBit i) = false := by
  intro n
  induction n with
  | zero => intro i; simp [reach, reset]
  | succ n ih =>
    intro i
    simp only [reach, step]
    by_cases hE : (P.usingRiseFallPast : Prop) ∧ 1 ≤ (reach P inp n).cycle ∧
        (reach P inp n).cycle < P.numCyclesToTrack
    · rw [if_pos hE, if_pos hE]
      simp only [Nat.testBit_mod_two_pow, Nat.testBit_or, Nat.testBit_shiftLeft]
      rcases i with _ | i
      · by_cases hcur : inp n % 2 ^ P.width ≠ 0 <;> simp [hcur]
      · have hb1 : (if (inp n % 2 ^ P.width ≠ 0) ∧
            ¬ (reach P inp n).history ((reach P inp n).cycle - 1) ≠ 0 then 1
            else 0).testBit (i + 1) = false := by
          split <;> simp [Nat.testBit_succ]
        have hb2 : (if (¬ inp n % 2 ^ P.width ≠ 0) ∧
            (reach P inp n).history ((reach P inp n).cycle - 1) ≠ 0 then 1
            else 0).testBit (i + 1) = false := by
          split <;> simp [Nat.testBit_succ]
        rw [hb1, hb2]
        have := ih i
        cases hr : (reach P inp n).rose_past.testBit i <;>
          cases hf : (reach P inp n).fell_past.testBit i <;>
          simp [hr, hf] at this ⊢
    · rw [if_neg hE, if_neg hE]
      by_cases hst : (reach P inp n).cyclespassed.testBit 0 = true <;>
        simp [hst, ih i]

/-- Within the window, at most `cycle` bits of each event accumulator can
have been shifted in: both stay below `2 ^ cycle`. -/
theorem rose_fell_past_bound (P : HParams) (inp : Nat → Nat) :
    ∀ n, n ≤ P.numCyclesToTrack →
      (reach P inp n).rose_past < 2 ^ n ∧ (reach P inp n).fell_past < 2 ^ n := by
  intro n
  induction n with
  | zero => intro _; exact ⟨Nat.zero_lt_one, Nat.zero_lt_one⟩
  | succ n ih =>
    intro hle
    obtain ⟨ihr, ihf⟩ := ih (by omega)
    have key : ∀ x : Nat, ∀ b : Nat, x < 2 ^ n → b ≤ 1 →
        ((x <<< 1) ||| b) % 2 ^ P.numCyclesToTrack < 2 ^ (n + 1) := by
      intro x b hx hb
      have h1 : x <<< 1 < 2 ^ (n + 1) := by
        rw [Nat.shiftLeft_eq, Nat.pow_one, Nat.pow_succ]
        exact Nat.mul_lt_mul_of_pos_right hx (by omega)
      have h2 : b < 2 ^ (n + 1) :=
        lt_of_le_of_lt hb (Nat.one_lt_two_pow_iff.mpr (by omega))
      exact lt_of_le_of_lt (Nat.mod_le _ _) (Nat.or_lt_two_pow h1 h2)
    simp only [reach, step]
    by_cases hE : (P.usingRiseFallPast : Prop) ∧ 1 ≤ (reach P inp n).cycle ∧
        (reach P inp n).cycle < P.numCyclesToTrack
    · rw [if_pos hE, if_pos hE]
      constructor
      · exact key _ _ ihr (by split <;> omega)
      · exact key _ _ ihf (by split <;> omega)
    · rw [if_neg hE, if_neg hE]
      have hpow : (2 : Nat) ^ n < 2 ^ (n + 1) :=
        Nat.pow_lt_pow_right (by omega) (by omega)
      by_cases hst : (reach P inp n).cyclespassed.testBit 0 = true <;>
        simp [hst] <;> omega

/-- `_riseFallPastEvents` with in-range `stepsAgo` and no extra span: the
1-bit slice at offset `stepsAgo - 1`. -/
theorem riseFallPastEvents_eq_value (N : Nat) (eh : HState → Nat) (k : Nat)
    (hk1 : 1 ≤ k) (hk2 : k ≤ N) :
    riseFallPastEvents N eh k 0 =
      .value (fun st _ => sliceFromTo (eh st) ((k - 1) * 1) ((k - 1) * 1 + 1)) := by
  unfold riseFallPastEvents
  rw [if_neg (by omega)]
  simp only
  rw [if_neg (by omega), if_neg (by simp only [sliceStart, sliceEnd]; omega)]
  rfl

/-! ### claim theorems -/

/-- Claim C1: for a tracked signal of width `W` in a tracker with window
`N` whose past query was built before elaboration, and any `k ≥ 1`, in
every reachable state of the elaborated update logic with `cycle ≥ k` the
expression `past(s, k)` builds without error and evaluates to the value
the signal held exactly `k` cycles before the current cycle — the `W`-bit
slice of the shift accumulator at bit offset `(k-1)*W` holds the sample
from `k` edges ago. -/
theorem past_query_correct (P : HParams) (inp : Nat → Nat) (k : Nat)
    (s : HState) (v : Nat) (hW : 0 < P.width) (hup : P.usingPast = true)
    (hk1 : 1 ≤ k) (hs : Reachable P inp (coordMin [P.numCyclesToTrack]) s)
    (hck : k ≤ s.cycle) :
    (past P.width P.numCyclesToTrack k).isRaised = false ∧
      qNum (past P.width P.numCyclesToTrack k) s v =
        inp (s.cycle - k) % 2 ^ P.width := by
  obtain ⟨n, hn, rfl, hcyc⟩ :=
    reachable_dest (coordMin_single_le P.numCyclesToTrack) hs
  have hnN : n < P.numCyclesToTrack :=
    lt_of_lt_of_le hn (coordMin_single_le P.numCyclesToTrack)
  have hkN : k ≤ P.numCyclesToTrack := by omega
  rw [past_eq_value P.width P.numCyclesToTrack k hW hk1 hkN]
  refine ⟨rfl, ?_⟩
  show sliceFromTo (reach P inp n).past _ _ = _
  rw [past_reach P inp hup n (by omega), hcyc]
  exact sliceFromTo_buildPast P inp n (by omega) k hk1 (by omega)

/-- Claim C3: in any reachable state of the elaborated logic, `rose(s)`
and `fell(s)` (stepsAgo = 0) never evaluate true together, and for any
`k` in `[1, N]`, `pastRose(s, k)` and `pastFell(s, k)` never evaluate true
together, because each clock edge shifts a 1 into at most one of
`rose_past` and `fell_past`. -/
theorem rose_fell_mutually_exclusive (P : HParams) (inp : Nat → Nat)
    (k : Nat) (s : HState) (v : Nat) (hk1 : 1 ≤ k)
    (hkN : k ≤ P.numCyclesToTrack)
    (hs : Reachable P inp (coordMin [P.numCyclesToTrack]) s) :
    ¬(qNum (rose P.width P.numCyclesToTrack 0) s v ≠ 0 ∧
        qNum (fell P.width P.numCyclesToTrack 0) s v ≠ 0) ∧
      ¬(qNum (pastRose P.numCyclesToTrack k) s v ≠ 0 ∧
        qNum (pastFell P.numCyclesToTrack k) s v ≠ 0) := by
  obtain ⟨n, hn, rfl, hcyc⟩ :=
    reachable_dest (coordMin_single_le P.numCyclesToTrack) hs
  constructor
  · rcases hpast : past P.width P.numCyclesToTrack 1 with _ | _ | e
    · simp [rose, fell, pastFalse, pastTrue, qmap, hpast, qNum]
    · simp [rose, fell, pastFalse, pastTrue, qmap, hpast, qNum]
    · simp only [rose, fell, pastFalse, pastTrue, qmap, hpast, qNum,
        if_neg (by omega : ¬ (0 : Nat) ≠ 0)]
      rintro ⟨h1, h2⟩
      by_cases hv : v % 2 ^ P.width = 0
      · simp [sbool, hv] at h1
      · simp [sbool, hv] at h2
  · rw [pastRose, pastFell,
      riseFallPastEvents_eq_value P.numCyclesToTrack _ k hk1 hkN,
      riseFallPastEvents_eq_value P.numCyclesToTrack _ k hk1 hkN]
    simp only [qmap, qNum, sliceFromTo_bit]
    have hdisj := rose_fell_past_disjoint P inp n (k - 1)
    rintro ⟨h1, h2⟩
    cases hr : (reach P inp n).rose_past.testBit (k - 1) <;>
      cases hf : (reach P inp n).fell_past.testBit (k - 1) <;>
      simp_all

/-- Witness for claim C3: window 5, width 1, input `0,1,0,1,1`, after four
edges, with `k = 2`. -/
theorem rose_fell_mutually_exclusive_witness :
    ¬(qNum (rose 1 5 0) (reach ⟨1, 5, true, true⟩ (fun n => [0, 1, 0, 1, 1].getD n 0) 4) 1 ≠ 0 ∧
        qNum (fell 1 5 0) (reach ⟨1, 5, true, true⟩ (fun n => [0, 1, 0, 1, 1].getD n 0) 4) 1 ≠ 0) ∧
      ¬(qNum (pastRose 5 2) (reach ⟨1, 5, true, true⟩ (fun n => [0, 1, 0, 1, 1].getD n 0) 4) 1 ≠ 0 ∧
        qNum (pastFell 5 2) (reach ⟨1, 5, true, true⟩ (fun n => [0, 1, 0, 1, 1].getD n 0) 4) 1 ≠ 0) :=
  rose_fell_mutually_exclusive ⟨1, 5, true, true⟩
    (fun n => [0, 1, 0, 1, 1].getD n 0) 2
    (reach ⟨1, 5, true, true⟩ (fun n => [0, 1, 0, 1, 1].getD n 0) 4) 1
    (by decide) (by decide) ⟨4, rfl, by decide⟩

/-! ### 1-bit value algebra and list helpers -/

theorem lor_one_bits (a b : Nat) (ha : a = 0 ∨ a = 1) (hb : b = 0 ∨ b = 1) :
    (a ||| b = 0 ∨ a ||| b = 1) ∧ (a ||| b = 1 ↔ a = 1 ∨ b = 1) := by
  rcases ha with rfl | rfl <;> rcases hb with rfl | rfl <;>
    exact ⟨by decide, by decide⟩

theorem land_one_bits (a b : Nat) (ha : a = 0 ∨ a = 1) (hb : b = 0 ∨ b = 1) :
    (a &&& b = 0 ∨ a &&& b = 1) ∧ (a &&& b = 1 ↔ a = 1 ∧ b = 1) := by
  rcases ha with rfl | rfl <;> rcases hb with rfl | rfl <;>
    exact ⟨by decide, by decide⟩

theorem beq_bits (x y : Nat) : beq x y = 0 ∨ beq x y = 1 := by
  unfold beq
  split <;> simp

theorem beq_eq_one_iff (x y : Nat) : beq x y = 1 ↔ x = y := by
  unfold beq
  split <;> simp_all

theorem bge_bits (x y : Nat) : bge x y = 0 ∨ bge x y = 1 := by
  unfold bge
  split <;> simp

theorem bge_eq_one_iff (x y : Nat) : bge x y = 1 ↔ x ≥ y := by
  unfold bge
  split <;> simp_all

theorem get?_eq_some_getD (l : List Nat) :
    ∀ j, j < l.length → l.get? j = some (l.getD j 0) := by
  induction l with
  | nil => intro j h; simp at h
  | cons a t ih =>
    intro j h
    cases j with
    | zero => rfl
    | succ j => exact ih j (by simpa using h)

theorem getD_replicate (n j : Nat) (a : Nat) (h : j < n) :
    (List.replicate n a).getD j 0 = a := by
  induction n generalizing j with
  | zero => omega
  | succ n ih =>
    cases j with
    | zero => rfl
    | succ j => exact ih j (by omega)

theorem mem_pyRange (a : Nat) (b : Int) (i : Nat) :
    i ∈ pyRange a b ↔ (a ≤ i ∧ (i : Int) < b) := by
  simp only [pyRange, List.mem_map, List.mem_range]
  constructor
  · rintro ⟨j, hj, rfl⟩
    omega
  · rintro ⟨h1, h2⟩
    exact ⟨i - a, by omega, by omega⟩

/-! ### characterizing the isEver / followsSequence folds -/

theorem valueAt_eq_value (N i : Nat) (h : i < N) :
    valueAt N i = .value fun st _ => st.history i := by
  unfold valueAt
  rw [if_neg (by omega), if_pos h]

theorem isEverStep_foldl_value (N value : Nat) :
    ∀ (js : List Nat), (∀ i ∈ js, i < N) →
      ∀ (b : HExpr HState), (∀ st v, b st v = 0 ∨ b st v = 1) →
      ∃ e, js.foldl (isEverStep N value) (.value b) = .value e ∧
        (∀ st v, e st v = 0 ∨ e st v = 1) ∧
        (∀ st v, (e st v = 1 ↔
          (b st v = 1 ∨ ∃ i ∈ js, st.history i = value))) := by
  intro js
  induction js with
  | nil =>
    intro _ b hb
    exact ⟨b, rfl, hb, fun st v => by simp⟩
  | cons i rest ih =>
    intro hval b hb
    have hiN : i < N := hval i (by simp)
    have hstep : isEverStep N value (.value b) i =
        .value (fun st v => b st v ||| beq (st.history i) value) := by
      unfold isEverStep
      rw [valueAt_eq_value N i hiN]
    rw [List.foldl_cons, hstep]
    obtain ⟨e, he, he01, hsem⟩ := ih (fun j hj => hval j (by simp [hj]))
      (fun st v => b st v ||| beq (st.history i) value)
      (fun st v => (lor_one_bits _ _ (hb st v) (beq_bits _ _)).1)
    refine ⟨e, he, he01, fun st v => ?_⟩
    rw [hsem st v,
      (lor_one_bits (b st v) (beq (st.history i) value) (hb st v)
        (beq_bits _ _)).2, beq_eq_one_iff]
    constructor
    · rintro ((hb1 | hhist) | ⟨j, hj, hjv⟩)
      · exact Or.inl hb1
      · exact Or.inr ⟨i, by simp, hhist⟩
      · exact Or.inr ⟨j, by simp [hj], hjv⟩
    · rintro (hb1 | ⟨j, hj, hjv⟩)
      · exact Or.inl (Or.inl hb1)
      · rcases List.mem_cons.mp hj with rfl | hj2
        · exact Or.inl (Or.inr hjv)
        · exact Or.inr ⟨j, hj2, hjv⟩

theorem isEverStep_foldl_nothing (N value : Nat) (js : List Nat)
    (hval : ∀ i ∈ js, i < N) (hne : js ≠ []) :
    ∃ e, js.foldl (isEverStep N value) .nothing = .value e ∧
      (∀ st v, e st v = 0 ∨ e st v = 1) ∧
      (∀ st v, (e st v = 1 ↔ ∃ i ∈ js, st.history i = value)) := by
  match js, hne with
  | i :: rest, _ =>
    have hiN : i < N := hval i (by simp)
    have hstep : isEverStep N value .nothing i =
        .value (fun st v => beq (st.history i) value) := by
      unfold isEverStep
      rw [valueAt_eq_value N i hiN]
    rw [List.foldl_cons, hstep]
    obtain ⟨e, he, he01, hsem⟩ := isEverStep_foldl_value N value rest
      (fun j hj => hval j (by simp [hj]))
      (fun st v => beq (st.history i) value) (fun st v => beq_bits _ _)
    refine ⟨e, he, he01, fun st v => ?_⟩
    rw [hsem st v, beq_eq_one_iff]
    constructor
    · rintro (hhist | ⟨j, hj, hjv⟩)
      · exact ⟨i, by simp, hhist⟩
      · exact ⟨j, by simp [hj], hjv⟩
    · rintro ⟨j, hj, hjv⟩
      rcases List.mem_cons.mp hj with rfl | hj2
      · exact Or.inl hjv
      · exact Or.inr ⟨j, hj2, hjv⟩

theorem followsSequenceStep_foldl_value (N : Nat) (values : List Nat)
    (start : Nat) :
    ∀ (js : List Nat), (∀ j ∈ js, start + j < N ∧ j < values.length) →
      ∀ (b : HExpr HState), (∀ st v, b st v = 0 ∨ b st v = 1) →
      ∃ e, js.foldl (followsSequenceStep N values start) (.value b) = .value e ∧
        (∀ st v, e st v = 0 ∨ e st v = 1) ∧
        (∀ st v, (e st v = 1 ↔
          (b st v = 1 ∧ ∀ j ∈ js, st.history (start + j) = values.getD j 0))) := by
  intro js
  induction js with
  | nil =>
    intro _ b hb
    exact ⟨b, rfl, hb, fun st v => by simp⟩
  | cons j rest ih =>
    intro hval b hb
    obtain ⟨hjN, hjlen⟩ := hval j (by simp)
    have hstep : followsSequenceStep N values start (.value b) j =
        .value (fun st v =>
          b st v &&& beq (st.history (start + j)) (values.getD j 0)) := by
      unfold followsSequenceStep
      rw [valueAt_eq_value N (start + j) hjN, get?_eq_some_getD values j hjlen]
    rw [List.foldl_cons, hstep]
    obtain ⟨e, he, he01, hsem⟩ := ih (fun j2 hj2 => hval j2 (by simp [hj2]))
      (fun st v => b st v &&& beq (st.history (start + j)) (values.getD j 0))
      (fun st v => (land_one_bits _ _ (hb st v) (beq_bits _ _)).1)
    refine ⟨e, he, he01, fun st v => ?_⟩
    rw [hsem st v,
      (land_one_bits (b st v) (beq (st.history (start + j)) (values.getD j 0))
        (hb st v) (beq_bits _ _)).2, beq_eq_one_iff]
    constructor
    · rintro ⟨⟨hb1, hhist⟩, hrest⟩
      refine ⟨hb1, fun j2 hj2 => ?_⟩
      rcases List.mem_cons.mp hj2 with rfl | hj3
      · exact hhist
      · exact hrest j2 hj3
    · rintro ⟨hb1, hall⟩
      exact ⟨⟨hb1, hall j (by simp)⟩, fun j2 hj2 => hall j2 (by simp [hj2])⟩

theorem followsSequenceStep_foldl_nothing (N : Nat) (values : List Nat)
    (start : Nat) (js : List Nat)
    (hval : ∀ j ∈ js, start + j < N ∧ j < values.length) (hne : js ≠ []) :
    ∃ e, js.foldl (followsSequenceStep N values start) .nothing = .value e ∧
      (∀ st v, e st v = 0 ∨ e st v = 1) ∧
      (∀ st v, (e st v = 1 ↔
        ∀ j ∈ js, st.history (start + j) = values.getD j 0)) := by
  match js, hne with
  | j :: rest, _ =>
    obtain ⟨hjN, hjlen⟩ := hval j (by simp)
    have hstep : followsSequenceStep N values start .nothing j =
        .value (fun st v =>
          beq (st.history (start + j)) (values.getD j 0)) := by
      unfold followsSequenceStep
      rw [valueAt_eq_value N (start + j) hjN, get?_eq_some_getD values j hjlen]
    rw [List.foldl_cons, hstep]
    obtain ⟨e, he, he01, hsem⟩ := followsSequenceStep_foldl_value N values start
      rest (fun j2 hj2 => hval j2 (by simp [hj2]))
      (fun st v => beq (st.history (start + j)) (values.getD j 0))
      (fun st v => beq_bits _ _)
    refine ⟨e, he, he01, fun st v => ?_⟩
    rw [hsem st v, beq_eq_one_iff]
    constructor
    · rintro ⟨hhist, hrest⟩ j2 hj2
      rcases List.mem_cons.mp hj2 with rfl | hj3
      · exact hhist
      · exact hrest j2 hj3
    · intro hall
      exact ⟨hall j (by simp), fun j2 hj2 => hall j2 (by simp [hj2])⟩

/-- `followsSequence` in its well-formed regime: the conjunction of the
`n` absolute-position comparisons. -/
theorem followsSequence_eq_value (N : Nat) (values : List Nat)
    (start n : Nat) (hn : 1 ≤ n) (hlen : n ≤ values.length)
    (hcap : start + n ≤ N) :
    ∃ e, followsSequence N values start (some n) = .value e ∧
      (∀ st v, e st v = 0 ∨ e st v = 1) ∧
      (∀ st v, (e st v = 1 ↔
        ∀ j < n, st.history (start + j) = values.getD j 0)) := by
  obtain ⟨e, he, he01, hsem⟩ := followsSequenceStep_foldl_nothing N values start
    (List.range n)
    (fun j hj => by
      have := List.mem_range.mp hj
      omega)
    (by
      intro hnil
      have := List.range_eq_nil.mp hnil
      omega)
  refine ⟨e, ?_, he01, fun st v => ?_⟩
  · simp only [followsSequence]
    rw [if_neg (show ¬ n = 0 by omega), if_neg (by omega), if_neg (by omega),
      he]
  · rw [hsem st v]
    constructor
    · intro hall j hj
      exact hall j (List.mem_range.mpr hj)
    · intro hall j hj
      exact hall j (List.mem_range.mp hj)

/-! ### chunk decomposition of accumulator comparisons -/

theorem sliceFromTo_lt (x a b : Nat) : sliceFromTo x a b < 2 ^ (b - a) :=
  Nat.mod_lt _ (Nat.pos_pow_of_pos _ (by omega))

theorem sliceFromTo_of_lt (x a b : Nat) (h : x < 2 ^ a) :
    sliceFromTo x a b = 0 := by
  unfold sliceFromTo
  rw [Nat.shiftRight_eq_div_pow, Nat.div_eq_of_lt h, Nat.zero_mod]

theorem or_shiftLeft (a b s : Nat) :
    (a ||| b) <<< s = (a <<< s) ||| (b <<< s) := by
  apply Nat.eq_of_testBit_eq
  intro i
  simp [Nat.testBit_shiftLeft, Nat.testBit_or, Bool.and_or_distrib_left]

theorem packFrom_shift (W : Nat) (l : List Nat) :
    ∀ i, packFrom W i l = packFrom W 0 l <<< (W * i) := by
  induction l with
  | nil => intro i; simp [packFrom]
  | cons v r ih =>
    intro i
    have h1 : packFrom W i (v :: r) =
        ((v &&& (2 ^ W - 1)) <<< (W * i)) ||| packFrom W (i + 1) r := rfl
    have h2 : packFrom W 0 (v :: r) =
        ((v &&& (2 ^ W - 1)) <<< (W * 0)) ||| packFrom W 1 r := rfl
    rw [h1, h2, ih (i + 1), ih 1, or_shiftLeft, ← Nat.shiftLeft_add,
      ← Nat.shiftLeft_add]
    have e1 : W * 0 + W * i = W * i := by ring
    have e2 : W * 1 + W * i = W * (i + 1) := by ring
    rw [e1, e2]

/-- The packed-constant builder in its natural cons form: value at the low
`W` bits, the rest shifted up. -/
theorem packFrom_cons (W v : Nat) (r : List Nat) :
    packFrom W 0 (v :: r) = (v % 2 ^ W) ||| (packFrom W 0 r <<< W) := by
  have h2 : packFrom W 0 (v :: r) =
      ((v &&& (2 ^ W - 1)) <<< (W * 0)) ||| packFrom W 1 r := rfl
  rw [h2, packFrom_shift W r 1, Nat.and_pow_two_sub_one_eq_mod]
  have e1 : W * 0 = 0 := by ring
  have e2 : W * 1 = W := by ring
  rw [e1, e2, Nat.shiftLeft_zero]

theorem packFrom_lt (W : Nat) :
    ∀ (l : List Nat), packFrom W 0 l < 2 ^ (W * l.length) := by
  intro l
  induction l with
  | nil => simp [packFrom]
  | cons v r ih =>
    rw [packFrom_cons]
    simp only [List.length_cons]
    have hWle : W ≤ W * (r.length + 1) := by
      have := Nat.mul_le_mul_left W (show 1 ≤ r.length + 1 by omega)
      omega
    have h1 : v % 2 ^ W < 2 ^ (W * (r.length + 1)) :=
      lt_of_lt_of_le (Nat.mod_lt _ (Nat.pos_pow_of_pos _ (by omega)))
        (Nat.pow_le_pow_right (by omega) hWle)
    have h2 : packFrom W 0 r <<< W < 2 ^ (W * (r.length + 1)) := by
      rw [Nat.shiftLeft_eq]
      calc packFrom W 0 r * 2 ^ W < 2 ^ (W * r.length) * 2 ^ W :=
            Nat.mul_lt_mul_of_pos_right ih (Nat.pos_pow_of_pos _ (by omega))
      _ = 2 ^ (W * r.length + W) := (Nat.pow_add 2 _ _).symm
      _ = 2 ^ (W * (r.length + 1)) := by ring_nf
    exact Nat.or_lt_two_pow h1 h2

/-- Low block of a shifted-in value without outer truncation. -/
theorem sliceFromTo_orShift_low (b v W : Nat) (hv : v < 2 ^ W) :
    sliceFromTo ((b <<< W) ||| v) 0 W = v := by
  apply Nat.eq_of_testBit_eq
  intro i
  rw [testBit_sliceFromTo]
  by_cases hi : i < W
  · simp [hi, Nat.testBit_shiftLeft, Nat.not_le.mpr hi]
  · have hvi : v.testBit i = false :=
      Nat.testBit_eq_false_of_lt
        (lt_of_lt_of_le hv (Nat.pow_le_pow_right (by omega) (by omega)))
    simp [hi, hvi]

/-- Higher block of a shifted-in value without outer truncation. -/
theorem sliceFromTo_orShift_high (b v W a : Nat) (hv : v < 2 ^ W)
    (ha : W ≤ a) :
    sliceFromTo ((b <<< W) ||| v) a (a + W) =
      sliceFromTo b (a - W) (a - W + W) := by
  apply Nat.eq_of_testBit_eq
  intro i
  rw [testBit_sliceFromTo, testBit_sliceFromTo]
  by_cases hi : i < W
  · have h2 : W ≤ a + i := by omega
    have hvi : v.testBit (a + i) = false :=
      Nat.testBit_eq_false_of_lt
        (lt_of_lt_of_le hv (Nat.pow_le_pow_right (by omega) h2))
    have h3 : a + i - W = a - W + i := by omega
    simp [hi, h2, hvi, Nat.testBit_shiftLeft, h3]
  · simp [hi]

/-- Block `j` of a packed value list: the `j`-th value masked to width
`W`, and zero past the end of the list. -/
theorem sliceFromTo_packFrom (W : Nat) :
    ∀ (l : List Nat) (j : Nat),
      sliceFromTo (packFrom W 0 l) (j * W) (j * W + W) =
        if j < l.length then l.getD j 0 % 2 ^ W else 0 := by
  intro l
  induction l with
  | nil =>
    intro j
    simp [packFrom, sliceFromTo_zero]
  | cons v r ih =>
    intro j
    rw [packFrom_cons, Nat.or_comm]
    have hv : v % 2 ^ W < 2 ^ W :=
      Nat.mod_lt _ (Nat.pos_pow_of_pos _ (by omega))
    cases j with
    | zero =>
      simp only [Nat.zero_mul, Nat.zero_add]
      rw [sliceFromTo_orShift_low _ _ W hv]
      simp
    | succ j =>
      have ha : W ≤ (j + 1) * W := by
        have := Nat.mul_le_mul_right W (show 1 ≤ j + 1 by omega)
        omega
      rw [sliceFromTo_orShift_high _ _ W ((j + 1) * W) hv ha]
      have harith : (j + 1) * W - W = j * W := by
        rw [Nat.succ_mul]
        omega
      rw [harith, ih j]
      simp

theorem sliceFromTo_sub (x m W j : Nat) (hj : j < m) :
    sliceFromTo (sliceFromTo x 0 (m * W)) (j * W) (j * W + W) =
      sliceFromTo x (j * W) (j * W + W) := by
  apply Nat.eq_of_testBit_eq
  intro i
  rw [testBit_sliceFromTo, testBit_sliceFromTo, testBit_sliceFromTo]
  have ew : j * W + W - j * W = W := by omega
  by_cases hi : i < W
  · have h1 : j * W + i < m * W := by
      have h2 : (j + 1) * W ≤ m * W := Nat.mul_le_mul_right W (by omega)
      rw [Nat.succ_mul] at h2
      omega
    simp [hi, h1, ew]
  · simp [hi, ew]

/-- Two values below `2 ^ (m*W)` are equal iff all their `m` blocks of
width `W` agree. -/
theorem eq_iff_chunks (W m x y : Nat) (hW : 0 < W) (hx : x < 2 ^ (m * W))
    (hy : y < 2 ^ (m * W)) :
    x = y ↔ ∀ j, j < m → sliceFromTo x (j * W) (j * W + W) =
      sliceFromTo y (j * W) (j * W + W) := by
  constructor
  · rintro rfl _ _
    rfl
  · intro hall
    apply Nat.eq_of_testBit_eq
    intro i
    by_cases him : i < m * W
    · have hjm : i / W < m := (Nat.div_lt_iff_lt_mul hW).mpr (by omega)
      have key := hall (i / W) hjm
      have hiw : i % W < W := Nat.mod_lt _ hW
      have hdecomp : i / W * W + i % W = i := by
        rw [Nat.mul_comm]
        exact Nat.div_add_mod i W
      have h1 := congrArg (fun z => z.testBit (i % W)) key
      simp only [testBit_sliceFromTo] at h1
      have e : i / W * W + W - i / W * W = W := by omega
      rw [e] at h1
      simpa [hiw, hdecomp] using h1
    · rw [Nat.testBit_eq_false_of_lt
          (lt_of_lt_of_le hx (Nat.pow_le_pow_right (by omega) (by omega))),
        Nat.testBit_eq_false_of_lt
          (lt_of_lt_of_le hy (Nat.pow_le_pow_right (by omega) (by omega)))]

theorem getD_reverse (l : List Nat) (j : Nat) (hj : j < l.length) :
    l.reverse.getD j 0 = l.getD (l.length - 1 - j) 0 := by
  rw [List.getD_eq_get?, List.getD_eq_get?, List.get?_reverse hj]

/-- With no past-type query built before elaboration, the shift
accumulator is only ever zeroed or held, so it stays zero forever. -/
theorem no_past_query_register_zero (P : HParams) (inp : Nat → Nat)
    (hup : P.usingPast = false) : ∀ n, (reach P inp n).past = 0 := by
  intro n
  induction n with
  | zero => rfl
  | succ n ih =>
    simp only [reach, step]
    rw [if_neg (by simp [hup])]
    by_cases hst : (reach P inp n).cyclespassed.testBit 0 = true <;>
      simp [hst, ih]

/-- With no rise/fall-type query built before elaboration, all six edge
registers are only ever zeroed or held, so they stay zero forever. -/
theorem no_rfp_query_registers_zero (P : HParams) (inp : Nat → Nat)
    (hrf : P.usingRiseFallPast = false) :
    ∀ n, (reach P inp n).rose = 0 ∧ (reach P inp n).fell = 0 ∧
      (reach P inp n).rose_trace = 0 ∧ (reach P inp n).fell_trace = 0 ∧
      (reach P inp n).rose_past = 0 ∧ (reach P inp n).fell_past = 0 := by
  intro n
  induction n with
  | zero => exact ⟨rfl, rfl, rfl, rfl, rfl, rfl⟩
  | succ n ih =>
    obtain ⟨i1, i2, i3, i4, i5, i6⟩ := ih
    have hE : ¬((P.usingRiseFallPast : Prop) ∧ 1 ≤ (reach P inp n).cycle ∧
        (reach P inp n).cycle < P.numCyclesToTrack) := by
      simp [hrf]
    simp only [reach, step]
    rw [if_neg hE, if_neg hE, if_neg hE, if_neg hE]
    by_cases hst : (reach P inp n).cyclespassed.testBit 0 = true <;>
      simp [hst, hrf, i1, i2, i3, i4, i5, i6]

/-- Claim C10: update logic for the past accumulator (resp. the rise/fall
registers) is emitted only when a past-type (resp. rise/fall-type) query
was built before `elaborate()`; without it, the registers are touched only
by the not-started reset branch, remain zero in every reachable state
(indeed after any number of edges), and query expressions built afterwards
over them read constant zeros. -/
theorem unused_queries_read_zero (P : HParams) (inp : Nat → Nat)
    (n k v : Nat) (hW : 0 < P.width) (hk1 : 1 ≤ k)
    (hkN : k ≤ P.numCyclesToTrack) :
    (P.usingPast = false →
      (reach P inp n).past = 0 ∧
        qNum (past P.width P.numCyclesToTrack k) (reach P inp n) v = 0) ∧
      (P.usingRiseFallPast = false →
        (reach P inp n).rose = 0 ∧ (reach P inp n).fell = 0 ∧
          (reach P inp n).rose_trace = 0 ∧ (reach P inp n).fell_trace = 0 ∧
          (reach P inp n).rose_past = 0 ∧ (reach P inp n).fell_past = 0 ∧
          qNum (pastRose P.numCyclesToTrack k) (reach P inp n) v = 0 ∧
          qNum (pastFell P.numCyclesToTrack k) (reach P inp n) v = 0) := by
  constructor
  · intro hup
    have hz := no_past_query_register_zero P inp hup n
    refine ⟨hz, ?_⟩
    rw [past_eq_value _ _ _ hW hk1 hkN]
    simp [qNum, hz, sliceFromTo_zero]
  · intro hrf
    obtain ⟨i1, i2, i3, i4, i5, i6⟩ := no_rfp_query_registers_zero P inp hrf n
    refine ⟨i1, i2, i3, i4, i5, i6, ?_, ?_⟩
    · rw [pastRose, riseFallPastEvents_eq_value _ _ k hk1 hkN]
      simp [qNum, i5, sliceFromTo_zero]
    · rw [pastFell, riseFallPastEvents_eq_value _ _ k hk1 hkN]
      simp [qmap, qNum, i6, sliceFromTo_zero]

/-- Witness for claim C10: window 3 with both flags off, after two edges,
with `k = 1`. -/
theorem unused_queries_read_zero_witness :
    ((⟨1, 3, false, false⟩ : HParams).usingPast = false →
      (reach ⟨1, 3, false, false⟩ (fun m => m + 1) 2).past = 0 ∧
        qNum (past 1 3 1) (reach ⟨1, 3, false, false⟩ (fun m => m + 1) 2) 5 = 0) ∧
      ((⟨1, 3, false, false⟩ : HParams).usingRiseFallPast = false →
        (reach ⟨1, 3, false, false⟩ (fun m => m + 1) 2).rose = 0 ∧
          (reach ⟨1, 3, false, false⟩ (fun m => m + 1) 2).fell = 0 ∧
          (reach ⟨1, 3, false, false⟩ (fun m => m + 1) 2).rose_trace = 0 ∧
          (reach ⟨1, 3, false, false⟩ (fun m => m + 1) 2).fell_trace = 0 ∧
          (reach ⟨1, 3, false, false⟩ (fun m => m + 1) 2).rose_past = 0 ∧
          (reach ⟨1, 3, false, false⟩ (fun m => m + 1) 2).fell_past = 0 ∧
          qNum (pastRose 3 1) (reach ⟨1, 3, false, false⟩ (fun m => m + 1) 2) 5 = 0 ∧
          qNum (pastFell 3 1) (reach ⟨1, 3, false, false⟩ (fun m => m + 1) 2) 5 = 0) :=
  unused_queries_read_zero ⟨1, 3, false, false⟩ (fun m => m + 1) 2 1 5
    (by decide) (by decide) (by decide)

/-- Counterexample to claim C2 as stated: window 3, width 1, constant-1
input, after two edges (a reachable state with `cycle = 2`).  With
`values = [1]` the claim's conditions hold — `cycle ≥ 1` and
`past(s, 1) = 1` — yet `pastSequenceWas(s, [1])` evaluates false, because
the compared slice spans `len(values) + 1 = 2` steps and the extra step
`past(s, 2) = 1` is not zero. -/
theorem pastSequenceWas_counterexample :
    (reach ⟨1, 3, true, false⟩ (fun _ => 1) 2).cycle ≥ 1 ∧
      qNum (past 1 3 1) (reach ⟨1, 3, true, false⟩ (fun _ => 1) 2) 1 = 1 ∧
      qNum (pastSequenceWas 1 3 [1])
        (reach ⟨1, 3, true, false⟩ (fun _ => 1) 2) 1 = 0 ∧
      Reachable ⟨1, 3, true, false⟩ (fun _ => 1) (coordMin [3])
        (reach ⟨1, 3, true, false⟩ (fun _ => 1) 2) :=
  ⟨by decide, by decide, by decide, ⟨2, rfl, by decide⟩⟩

/-- Claim C2 (amended): for a non-empty value list with
`len(values) + 1 ≤ N`, `pastSequenceWas(s, [v1..vn])` builds without
error, and it is true exactly when `cycle ≥ n`, `past(s, n-i+1) = v_i`
(masked to the signal width) for every `i` in `[1..n]`, and additionally
`past(s, n+1) = 0` — the comparison spans one step more than the list, so
the step just beyond the sequence must read as zero. -/
theorem pastSequenceWas_semantics_amended (W N : Nat) (hW : 0 < W)
    (vals : List Nat) (hne : vals ≠ []) (hcap : vals.length + 1 ≤ N)
    (st : HState) (v : Nat) :
    (pastSequenceWas W N vals).isRaised = false ∧
      (qNum (pastSequenceWas W N vals) st v ≠ 0 ↔
        (st.cycle ≥ vals.length ∧
          (∀ i, 1 ≤ i → i ≤ vals.length →
            qNum (past W N (vals.length - i + 1)) st v =
              vals.getD (i - 1) 0 % 2 ^ W) ∧
          qNum (past W N (vals.length + 1)) st v = 0)) := by
  have hn1 : 1 ≤ vals.length := by
    cases vals
    · simp at hne
    · simp
  have hps : pastSequence W N (vals.length + 1) = .value (fun st2 _ =>
      sliceFromTo st2.past (sliceStart W 0)
        (sliceEnd W (vals.length + 1 - 1))) := by
    unfold pastSequence
    rw [if_neg (by omega), if_neg (by omega)]
  have hval : pastSequenceWas W N vals = .value (fun st2 v2 =>
      bge st2.cycle vals.length &&&
        beq (sliceFromTo st2.past (sliceStart W 0)
            (sliceEnd W (vals.length + 1 - 1)))
          (orderPastSignalStatesEarliestToLast W vals)) := by
    simp only [pastSequenceWas]
    rw [if_pos (show vals.length ≠ 0 by omega), hps]
  rw [hval]
  refine ⟨rfl, ?_⟩
  simp only [qNum_value]
  have hstart : sliceStart W 0 = 0 := by
    simp [sliceStart]
  have hend : sliceEnd W (vals.length + 1 - 1) = (vals.length + 1) * W := by
    simp only [sliceStart, sliceEnd, Nat.succ_mul, Nat.add_sub_cancel]
  have hX : sliceFromTo st.past 0 ((vals.length + 1) * W) <
      2 ^ ((vals.length + 1) * W) := by
    have h := sliceFromTo_lt st.past 0 ((vals.length + 1) * W)
    simpa using h
  have hmlen : vals.reverse.length = vals.length := List.length_reverse vals
  have hY : orderPastSignalStatesEarliestToLast W vals <
      2 ^ ((vals.length + 1) * W) := by
    unfold orderPastSignalStatesEarliestToLast orderPastSignalStatesLastToEarliest
    refine lt_of_lt_of_le (packFrom_lt W vals.reverse)
      (Nat.pow_le_pow_right (by omega) ?_)
    rw [hmlen]
    calc W * vals.length = vals.length * W := by ring
    _ ≤ (vals.length + 1) * W := Nat.mul_le_mul_right W (by omega)
  have hchunks := eq_iff_chunks W (vals.length + 1)
    (sliceFromTo st.past 0 ((vals.length + 1) * W))
    (orderPastSignalStatesEarliestToLast W vals) hW hX hY
  have hchunkX : ∀ j, j < vals.length + 1 →
      sliceFromTo (sliceFromTo st.past 0 ((vals.length + 1) * W))
          (j * W) (j * W + W) =
        sliceFromTo st.past (j * W) (j * W + W) :=
    fun j hj => sliceFromTo_sub st.past (vals.length + 1) W j hj
  have hchunkY : ∀ j,
      sliceFromTo (orderPastSignalStatesEarliestToLast W vals)
          (j * W) (j * W + W) =
        if j < vals.length then vals.getD (vals.length - 1 - j) 0 % 2 ^ W
        else 0 := by
    intro j
    unfold orderPastSignalStatesEarliestToLast orderPastSignalStatesLastToEarliest
    rw [sliceFromTo_packFrom W vals.reverse j, hmlen]
    by_cases hj : j < vals.length
    · rw [if_pos hj, if_pos hj, getD_reverse vals j (by omega)]
    · rw [if_neg hj, if_neg hj]
  have hpq : ∀ k, 1 ≤ k → k ≤ N →
      qNum (past W N k) st v =
        sliceFromTo st.past ((k - 1) * W) ((k - 1) * W + W) := by
    intro k h1 h2
    rw [past_eq_value W N k hW h1 h2]
    rfl
  have hcore : (sliceFromTo st.past 0 ((vals.length + 1) * W) =
      orderPastSignalStatesEarliestToLast W vals) ↔
      ((∀ i, 1 ≤ i → i ≤ vals.length →
        sliceFromTo st.past ((vals.length - i) * W)
            ((vals.length - i) * W + W) =
          vals.getD (i - 1) 0 % 2 ^ W) ∧
        sliceFromTo st.past (vals.length * W) (vals.length * W + W) = 0) := by
    rw [hchunks]
    constructor
    · intro hall
      constructor
      · intro i hi1 hi2
        have hj : vals.length - i < vals.length + 1 := by omega
        have h := hall (vals.length - i) hj
        rw [hchunkX _ hj, hchunkY, if_pos (by omega)] at h
        have he : vals.length - 1 - (vals.length - i) = i - 1 := by omega
        rwa [he] at h
      · have hj : vals.length < vals.length + 1 := by omega
        have h := hall vals.length hj
        rwa [hchunkX _ hj, hchunkY, if_neg (by omega)] at h
    · rintro ⟨hin, hlast⟩ j hj
      rw [hchunkX _ hj, hchunkY]
      by_cases hjn : j < vals.length
      · rw [if_pos hjn]
        have h := hin (vals.length - j) (by omega) (by omega)
        have e1 : vals.length - (vals.length - j) = j := by omega
        have e2 : vals.length - 1 - j = vals.length - j - 1 := by omega
        rw [e1] at h
        rw [e2]
        exact h
      · rw [if_neg hjn]
        have hje : j = vals.length := by omega
        rw [hje]
        exact hlast
  have hb1 := bge_bits st.cycle vals.length
  have hb2 := beq_bits
    (sliceFromTo st.past (sliceStart W 0) (sliceEnd W (vals.length + 1 - 1)))
    (orderPastSignalStatesEarliestToLast W vals)
  constructor
  · intro hne0
    have h1 : bge st.cycle vals.length &&&
        beq (sliceFromTo st.past (sliceStart W 0)
            (sliceEnd W (vals.length + 1 - 1)))
          (orderPastSignalStatesEarliestToLast W vals) = 1 := by
      rcases (land_one_bits _ _ hb1 hb2).1 with h | h
      · exact absurd h hne0
      · exact h
    obtain ⟨hge, heq⟩ := (land_one_bits _ _ hb1 hb2).2.mp h1
    rw [bge_eq_one_iff] at hge
    rw [beq_eq_one_iff, hstart, hend] at heq
    obtain ⟨hin, hlast⟩ := hcore.mp heq
    refine ⟨hge, ?_, ?_⟩
    · intro i hi1 hi2
      rw [hpq (vals.length - i + 1) (by omega) (by omega)]
      have e : vals.length - i + 1 - 1 = vals.length - i := by omega
      rw [e]
      exact hin i hi1 hi2
    · rw [hpq (vals.length + 1) (by omega) (by omega)]
      have e : vals.length + 1 - 1 = vals.length := by omega
      rw [e]
      exact hlast
  · rintro ⟨hge, hin, hlast⟩
    have heq : sliceFromTo st.past 0 ((vals.length + 1) * W) =
        orderPastSignalStatesEarliestToLast W vals := by
      apply hcore.mpr
      constructor
      · intro i hi1 hi2
        have h := hin i hi1 hi2
        rw [hpq (vals.length - i + 1) (by omega) (by omega)] at h
        have e : vals.length - i + 1 - 1 = vals.length - i := by omega
        rwa [e] at h
      · have h := hlast
        rw [hpq (vals.length + 1) (by omega) (by omega)] at h
        have e : vals.length + 1 - 1 = vals.length := by omega
        rwa [e] at h
    have hone : bge st.cycle vals.length &&&
        beq (sliceFromTo st.past (sliceStart W 0)
            (sliceEnd W (vals.length + 1 - 1)))
          (orderPastSignalStatesEarliestToLast W vals) = 1 :=
      (land_one_bits _ _ hb1 hb2).2.mpr
        ⟨(bge_eq_one_iff _ _).mpr hge,
          (beq_eq_one_iff _ _).mpr (by rw [hstart, hend]; exact heq)⟩
    omega

/-- Witness for the amended claim C2: window 3, width 1, constant-1
input, after two edges, with `values = [1]` — the iff evaluates with both
sides false there (the extra step reads 1). -/
theorem pastSequenceWas_semantics_amended_witness :
    (pastSequenceWas 1 3 [1]).isRaised = false ∧
      (qNum (pastSequenceWas 1 3 [1])
          (reach ⟨1, 3, true, false⟩ (fun _ => 1) 2) 1 ≠ 0 ↔
        ((reach ⟨1, 3, true, false⟩ (fun _ => 1) 2).cycle ≥ [1].length ∧
          (∀ i, 1 ≤ i → i ≤ [1].length →
            qNum (past 1 3 ([1].length - i + 1))
                (reach ⟨1, 3, true, false⟩ (fun _ => 1) 2) 1 =
              [1].getD (i - 1) 0 % 2 ^ 1) ∧
          qNum (past 1 3 ([1].length + 1))
              (reach ⟨1, 3, true, false⟩ (fun _ => 1) 2) 1 = 0)) :=
  pastSequenceWas_semantics_amended 1 3 (by decide) [1] (by decide)
    (by decide) (reach ⟨1, 3, true, false⟩ (fun _ => 1) 2) 1

/-- `isEver` in its well-formed regime delegates to the fold over
`range(startCycle, numCycles)`. -/
theorem isEver_eq_fold (N value startCycle n : Nat)
    (hcap : startCycle + n ≤ N) :
    isEver N value startCycle (some (n : Int)) =
      (pyRange startCycle (n : Int)).foldl (isEverStep N value) .nothing := by
  have h1 : ¬((startCycle : Int) + (n : Int) > (N : Int)) := by omega
  simp only [isEver]
  rw [if_neg h1, if_neg h1]

/-- Counterexample to claim C6 as stated: with window 4, `start = 1`,
`n = 1`, `isConstant(s, v, 1, 1)` is a real expression that is true in a
reachable state, yet `isEver(s, v, 1, 1)` is not a well-formed expression
at all — the loop runs over `range(startCycle, numCycles) = range(1, 1)`,
which is empty, so `isEver` silently returns `None` and `isNever` raises
while negating it. -/
theorem isConstant_isEver_counterexample :
    isEver 4 1 1 (some ((1 : Nat) : Int)) = QResult.nothing ∧
      isNever 4 1 1 (some ((1 : Nat) : Int)) = QResult.raised ∧
      (∃ e, isConstant 4 1 1 1 = QResult.value e ∧
        e (reach ⟨1, 4, true, false⟩ (fun _ => 1) 2) 1 ≠ 0) ∧
      Reachable ⟨1, 4, true, false⟩ (fun _ => 1) (coordMin [4])
        (reach ⟨1, 4, true, false⟩ (fun _ => 1) 2) :=
  ⟨rfl, rfl, ⟨_, rfl, by decide⟩, ⟨2, rfl, by decide⟩⟩

/-- Claim C6 (amended): for `1 ≤ n`, `start + n ≤ N` and additionally
`start < n` — the only case in which the (mis-ranged) `isEver` loop over
`range(start, n)` is non-empty and produces an expression — whenever
`isConstant(s, v, start, n)` is true in a state, `isEver(s, v, start, n)`
is a well-formed expression that is true in that state and
`isNever(s, v, start, n)` is a well-formed expression that is false
there.  (For `start ≥ n` the `isEver` loop is empty: it returns `None`
and `isNever` raises, as the counterexample shows.) -/
theorem isConstant_isEver_amended (N value startCycle n : Nat)
    (hn : 1 ≤ n) (hlt : startCycle < n) (hcap : startCycle + n ≤ N)
    (st : HState) (v : Nat) (e : HExpr HState)
    (hc : isConstant N value startCycle n = .value e)
    (htrue : e st v ≠ 0) :
    (∃ e2, isEver N value startCycle (some (n : Int)) = .value e2 ∧
        e2 st v ≠ 0) ∧
      (∃ e3, isNever N value startCycle (some (n : Int)) = .value e3 ∧
        e3 st v = 0) := by
  -- characterize isConstant = followsSequence over a replicated list
  obtain ⟨ec, hec, hecb, hsem⟩ := followsSequence_eq_value N
    (List.replicate n value) startCycle n hn (by simp) hcap
  rw [isConstant, hec] at hc
  have hce : ec = e := by injection hc
  rw [hce] at hecb hsem
  have hconst : ∀ j < n, st.history (startCycle + j) = value := by
    have h1 : e st v = 1 := by
      rcases hecb st v with h | h
      · exact absurd h htrue
      · exact h
    intro j hj
    have := (hsem st v).mp h1 j hj
    rwa [getD_replicate n j value hj] at this
  -- isEver over the non-empty range [startCycle, n)
  obtain ⟨e2, he2, he2b, hsem2⟩ := isEverStep_foldl_nothing N value
    (pyRange startCycle (n : Int))
    (fun i hi => by
      have := (mem_pyRange startCycle (n : Int) i).mp hi
      omega)
    (by
      intro hnil
      have : startCycle ∈ pyRange startCycle (n : Int) :=
        (mem_pyRange startCycle (n : Int) startCycle).mpr ⟨le_refl _, by omega⟩
      rw [hnil] at this
      simp at this)
  have hever : isEver N value startCycle (some (n : Int)) = .value e2 := by
    rw [isEver_eq_fold N value startCycle n hcap, he2]
  have he2v : e2 st v = 1 := by
    refine (hsem2 st v).mpr ⟨startCycle, ?_, ?_⟩
    · exact (mem_pyRange startCycle (n : Int) startCycle).mpr
        ⟨le_refl _, by omega⟩
    · have := hconst 0 (by omega)
      simpa using this
  refine ⟨⟨e2, hever, by omega⟩, ?_⟩
  refine ⟨fun st2 v2 => 1 - e2 st2 v2, ?_, ?_⟩
  · rw [isNever, hever]
  · show 1 - e2 st v = 0
    omega

/-- Witness for the amended claim C6: window 4, value 1, `start = 1`,
`n = 2`, on the state reached after three edges of the constant-1 input
(where the signal history really is constant 1). -/
theorem isConstant_isEver_amended_witness :
    (∃ e2, isEver 4 1 1 (some ((2 : Nat) : Int)) = .value e2 ∧
        e2 (reach ⟨1, 4, true, false⟩ (fun _ => 1) 3) 1 ≠ 0) ∧
      (∃ e3, isNever 4 1 1 (some ((2 : Nat) : Int)) = .value e3 ∧
        e3 (reach ⟨1, 4, true, false⟩ (fun _ => 1) 3) 1 = 0) :=
  isConstant_isEver_amended 4 1 1 2 (by decide) (by decide) (by decide)
    (reach ⟨1, 4, true, false⟩ (fun _ => 1) 3) 1 _ rfl (by decide)

/-- Claim C4: with two trackers of windows 10 and 20 constructed in one
process, the coordinator-derived bound used by the `Assume` each tracker
emits is the minimum window 10 (and the `Assume` is emitted, since the
max capacity is nonzero); every reachable state of either tracker then
satisfies `cycle < 10`, and conversely all states up to cycle 9 remain
reachable. -/
theorem two_tracker_capacity_bound :
    coordMin [10, 20] = 10 ∧ coordMax [10, 20] ≠ 0 ∧
      (∀ (P : HParams) (inp : Nat → Nat) (s : HState),
        P.numCyclesToTrack = 10 ∨ P.numCyclesToTrack = 20 →
        Reachable P inp (coordMin [10, 20]) s → s.cycle < 10) ∧
      (∀ (P : HParams) (inp : Nat → Nat) (n : Nat),
        P.numCyclesToTrack = 10 ∨ P.numCyclesToTrack = 20 → n < 10 →
        Reachable P inp (coordMin [10, 20]) (reach P inp n)) := by
  have hco : coordMin [10, 20] = 10 := rfl
  refine ⟨rfl, by decide, ?_, ?_⟩
  · intro P inp s _ hs
    obtain ⟨n, rfl, hall⟩ := hs
    have := hall n (le_refl n)
    rwa [hco] at this
  · intro P inp n hN hlt
    refine ⟨n, rfl, fun m hm => ?_⟩
    rw [cycle_reach, hco]
    rcases hN with h | h <;> rw [h]
    · have h16 : (2 : Nat) ^ bitLen 10 = 16 := by decide
      rw [h16, Nat.mod_eq_of_lt (by omega)]
      omega
    · have h32 : (2 : Nat) ^ bitLen 20 = 32 := by decide
      rw [h32, Nat.mod_eq_of_lt (by omega)]
      omega

/-- Witness for claim C4: the 20-window tracker after three edges is a
reachable state under the shared bound, and its cycle is below 10. -/
theorem two_tracker_capacity_bound_witness :
    (reach ⟨1, 20, true, false⟩ (fun _ => 0) 3).cycle < 10 :=
  two_tracker_capacity_bound.2.2.1 ⟨1, 20, true, false⟩ (fun _ => 0)
    (reach ⟨1, 20, true, false⟩ (fun _ => 0) 3) (Or.inr rfl)
    ⟨3, rfl, by decide⟩

/-- Counterexample to claim C7 as stated: `pastSequenceWas` with an empty
expected-value list does not raise — the `if numValues` guard silently
skips the comparison and the method returns Python `None`. -/
theorem empty_sequence_counterexample :
    pastSequenceWas 1 3 [] = QResult.nothing ∧
      (pastSequenceWas 1 3 []).isRaised = false ∧
      (pastWasConstant 1 3 5 0).isRaised = false :=
  ⟨rfl, rfl, rfl⟩

/-- Claim C7 (amended): a sequence query over an empty expected-value list
(`pastSequenceWas(s, [])`, or `pastWasConstant`/`wasConstant` with
`numCycles = 0`) yields no usable expression, but not by raising: the
guard silently returns `None` instead of a descriptive error. -/
theorem empty_sequence_silent_none (W N value : Nat) :
    pastSequenceWas W N [] = QResult.nothing ∧
      pastWasConstant W N value 0 = QResult.nothing ∧
      wasConstant W N value 0 = QResult.nothing :=
  ⟨rfl, rfl, rfl⟩

/-- Counterexample to claim C8 as stated: `past(s, N)` (here `N = 3`) does
not raise, although the claim says every `k ≥ N` raises — only `k > N`
does. -/
theorem past_at_window_counterexample :
    (past 1 3 3).isRaised = false ∧ 3 ≥ 3 := by
  exact ⟨by decide, by omega⟩

/-- Claim C8 (amended): `past(s, k)` raises at construction exactly when
`k < 1` or `k > N` (so `k = N` is legal), and `valueAt(s, t)` raises
exactly when `t ≥ N` (for `t = N` as an index error into the length-`N`
store list rather than the capacity check, which only fires at
`t > N`). -/
theorem query_bounds_amended (W N : Nat) (hW : 0 < W) :
    (∀ k, (past W N k).isRaised = true ↔ (k < 1 ∨ k > N)) ∧
      (∀ t, (valueAt N t).isRaised = true ↔ t ≥ N) := by
  constructor
  · intro k
    constructor
    · intro h
      by_contra hc
      push_neg at hc
      rw [past_eq_value W N k hW (by omega) (by omega)] at h
      exact absurd h (by simp [QResult.isRaised])
    · intro h
      unfold past
      rcases h with h | h
      · rw [if_pos h]
        rfl
      · rw [if_neg (by omega), if_pos h]
        rfl
  · intro t
    unfold valueAt
    constructor
    · intro h
      by_contra hc
      push_neg at hc
      rw [if_neg (by omega), if_pos hc] at h
      simp [QResult.isRaised] at h
    · intro h
      by_cases h1 : t > N
      · rw [if_pos h1]
        rfl
      · rw [if_neg h1, if_neg (by omega)]
        rfl

/-- Witness for the amended claim C8 at window 3, width 1, with the
out-of-range offset 4 and absolute index 3. -/
theorem query_bounds_amended_witness :
    ((past 1 3 4).isRaised = true ↔ (4 < 1 ∨ 4 > 3)) ∧
      ((valueAt 3 3).isRaised = true ↔ 3 ≥ 3) :=
  ⟨(query_bounds_amended 1 3 (by decide)).1 4,
    (query_bounds_amended 1 3 (by decide)).2 3⟩

/-- Counterexample to claim C9 as stated: building `past(s, 1)` (or
`rose(s)`) mutates the signal's bookkeeping record — it sets the
`usingPast` (resp. both `using*`) flags. -/
theorem builders_mutate_counterexample :
    (pastBuilder ⟨1, 3, false, false⟩ 1).2 ≠ ⟨1, 3, false, false⟩ ∧
      (roseBuilder ⟨1, 3, false, false⟩ 0).2 ≠ ⟨1, 3, false, false⟩ := by
  decide

/-- Claim C9 (amended): with valid arguments, the query builders leave the
signal's width, window, and everything else unchanged except for the
`usingPast`/`usingRiseFallPast` bookkeeping flags they set to request
elaboration of the matching update logic (`past` sets `usingPast`, `rose`
sets both, `pastRose` sets `usingRiseFallPast`); `valueAt` mutates
nothing. -/
theorem builders_mutate_only_flags (r : SignalRecord) (k : Nat)
    (hk1 : 1 ≤ k) (hk2 : k ≤ r.numCyclesToTrack) :
    (pastBuilder r k).2 = { r with usingPast := true } ∧
      (roseBuilder r 0).2 =
        { r with usingPast := true, usingRiseFallPast := true } ∧
      (pastRoseBuilder r k).2 = { r with usingRiseFallPast := true } ∧
      (valueAtBuilder r k).2 = r ∧
      (pastBuilder r k).2.width = r.width ∧
      (pastBuilder r k).2.numCyclesToTrack = r.numCyclesToTrack := by
  have h1 : (pastBuilder r k).2 = { r with usingPast := true } := by
    unfold pastBuilder
    rw [if_neg (by omega), if_neg (by omega)]
  exact ⟨h1, rfl, rfl, rfl, by rw [h1], by rw [h1]⟩

/-- Witness for the amended claim C9 at a fresh record with window 3. -/
theorem builders_mutate_only_flags_witness :
    (pastBuilder ⟨1, 3, false, false⟩ 1).2 =
        { (⟨1, 3, false, false⟩ : SignalRecord) with usingPast := true } ∧
      (roseBuilder ⟨1, 3, false, false⟩ 0).2 =
        { (⟨1, 3, false, false⟩ : SignalRecord) with
            usingPast := true, usingRiseFallPast := true } ∧
      (pastRoseBuilder ⟨1, 3, false, false⟩ 1).2 =
        { (⟨1, 3, false, false⟩ : SignalRecord) with usingRiseFallPast := true } ∧
      (valueAtBuilder ⟨1, 3, false, false⟩ 1).2 = ⟨1, 3, false, false⟩ ∧
      (pastBuilder ⟨1, 3, false, false⟩ 1).2.width = 1 ∧
      (pastBuilder ⟨1, 3, false, false⟩ 1).2.numCyclesToTrack = 3 :=
  builders_mutate_only_flags ⟨1, 3, false, false⟩ 1 (by decide) (by decide)

/-- Counterexample to claim C5 as stated: `pastFell(s, k)` is not the bare
`k`-th 1-bit slice of `fell_past` — in a state with `cycle = 0` and
`fell_past = 1`, the slice is 1 yet `pastFell(s, 1)` evaluates 0, because
of its extra `cycle >= k` conjunct; `pastRose(s, 1)` on the mirrored
`rose_past` evaluates 1 in the same state, so the two families differ by
more than the `started` gate of the stepsAgo-0 forms. -/
theorem pastFell_extra_gate_counterexample :
    qNum (pastFell 3 1) ⟨0, 0, fun _ => 0, 0, 0, 0, 0, 0, 1, 1⟩ 0 = 0 ∧
      (HState.fell_past ⟨0, 0, fun _ => 0, 0, 0, 0, 0, 0, 1, 1⟩).testBit 0 = true ∧
      qNum (pastRose 3 1) ⟨0, 0, fun _ => 0, 0, 0, 0, 0, 0, 1, 1⟩ 0 = 1 := by
  decide

/-- Claim C5 (amended): `pastFell(s, k)` carries an extra `cycle >= k`
gate that `pastRose(s, k)` does not, but on reachable states the gate is
redundant: bit `k-1` of an event accumulator can only be set once
`cycle >= k`, so both families evaluate to the respective accumulator
bits, raise under the same conditions, and the only evaluation asymmetry
left is that `rose(s, 0)` requires `started` while `fell(s, 0)` does not
(witnessed by a not-yet-started state where `fell` is true). -/
theorem fell_mirrors_rose_amended (P : HParams) (inp : Nat → Nat) (k : Nat)
    (s : HState) (v : Nat) (hk1 : 1 ≤ k) (hkN : k ≤ P.numCyclesToTrack)
    (hs : Reachable P inp (coordMin [P.numCyclesToTrack]) s) :
    ((pastRose P.numCyclesToTrack k).isRaised =
        (pastFell P.numCyclesToTrack k).isRaised) ∧
      qNum (pastRose P.numCyclesToTrack k) s v =
        (if s.rose_past.testBit (k - 1) then 1 else 0) ∧
      qNum (pastFell P.numCyclesToTrack k) s v =
        (if s.fell_past.testBit (k - 1) then 1 else 0) ∧
      (qNum (rose P.width P.numCyclesToTrack 0) s v ≠ 0 →
        s.cyclespassed.testBit 0 = true) ∧
      (∃ e, fell 1 1 0 = QResult.value e ∧
        e ⟨0, 0, fun _ => 0, 1, 0, 0, 0, 0, 0, 0⟩ 0 ≠ 0 ∧
        (HState.cyclespassed ⟨0, 0, fun _ => 0, 1, 0, 0, 0, 0, 0, 0⟩).testBit 0 =
          false) := by
  obtain ⟨n, hn, rfl, hcyc⟩ :=
    reachable_dest (coordMin_single_le P.numCyclesToTrack) hs
  have hnN : n ≤ P.numCyclesToTrack :=
    le_of_lt (lt_of_lt_of_le hn (coordMin_single_le P.numCyclesToTrack))
  have hfb := (rose_fell_past_bound P inp n hnN).2
  refine ⟨?_, ?_, ?_, ?_, ?_⟩
  · rw [pastRose, pastFell, riseFallPastEvents_eq_value _ _ k hk1 hkN,
      riseFallPastEvents_eq_value _ _ k hk1 hkN]
    rfl
  · rw [pastRose, riseFallPastEvents_eq_value _ _ k hk1 hkN]
    simp only [qNum, sliceFromTo_bit]
  · rw [pastFell, riseFallPastEvents_eq_value _ _ k hk1 hkN]
    simp only [qmap, qNum, sliceFromTo_bit]
    cases hf : (reach P inp n).fell_past.testBit (k - 1)
    · simp
    · have hkn : k ≤ n := by
        by_contra hgt
        push_neg at hgt
        have : (reach P inp n).fell_past < 2 ^ (k - 1) :=
          lt_of_lt_of_le hfb (Nat.pow_le_pow_right (by omega) (by omega))
        rw [Nat.testBit_eq_false_of_lt this] at hf
        exact Bool.false_ne_true hf
      have hgate : bge (reach P inp n).cycle k = 1 := by
        rw [hcyc]
        simp [bge, hkn]
      rw [hgate]
      decide
  · rcases hpast : past P.width P.numCyclesToTrack 1 with _ | _ | e <;>
      simp only [rose, qmap, pastFalse, hpast, qNum,
        if_neg (by omega : ¬ (0 : Nat) ≠ 0)]
    · simp
    · simp
    · intro h1
      by_cases hst : (reach P inp n).cyclespassed.testBit 0 = true
      · exact hst
      · exfalso
        apply h1
        have hst2 : (reach P inp n).cyclespassed % 2 = 0 := by
          rw [Nat.testBit_to_div_mod] at hst
          simp at hst
          omega
        have : startedE (reach P inp n) v = 0 := by
          simp only [startedE, bitAt, Nat.shiftRight_zero]
          exact hst2
        rw [this]
        simp
  · exact ⟨_, rfl, by decide, by decide⟩

/-- Witness for the amended claim C5: window 5, width 1, input
`0,1,0,1,1`, after four edges, with `k = 2` (a cycle where `fell_past`
bit 1 is set). -/
theorem fell_mirrors_rose_amended_witness :
    ((pastRose 5 2).isRaised = (pastFell 5 2).isRaised) ∧
      qNum (pastRose 5 2) (reach ⟨1, 5, true, true⟩ (fun n => [0, 1, 0, 1, 1].getD n 0) 4) 1 =
        (if (reach ⟨1, 5, true, true⟩ (fun n => [0, 1, 0, 1, 1].getD n 0) 4).rose_past.testBit 1 then 1 else 0) ∧
      qNum (pastFell 5 2) (reach ⟨1, 5, true, true⟩ (fun n => [0, 1, 0, 1, 1].getD n 0) 4) 1 =
        (if (reach ⟨1, 5, true, true⟩ (fun n => [0, 1, 0, 1, 1].getD n 0) 4).fell_past.testBit 1 then 1 else 0) ∧
      (qNum (rose 1 5 0) (reach ⟨1, 5, true, true⟩ (fun n => [0, 1, 0, 1, 1].getD n 0) 4) 1 ≠ 0 →
        (reach ⟨1, 5, true, true⟩ (fun n => [0, 1, 0, 1, 1].getD n 0) 4).cyclespassed.testBit 0 = true) ∧
      (∃ e, fell 1 1 0 = QResult.value e ∧
        e ⟨0, 0, fun _ => 0, 1, 0, 0, 0, 0, 0, 0⟩ 0 ≠ 0 ∧
        (HState.cyclespassed ⟨0, 0, fun _ => 0, 1, 0, 0, 0, 0, 0, 0⟩).testBit 0 =
          false) :=
  fell_mirrors_rose_amended ⟨1, 5, true, true⟩
    (fun n => [0, 1, 0, 1, 1].getD n 0) 2
    (reach ⟨1, 5, true, true⟩ (fun n => [0, 1, 0, 1, 1].getD n 0) 4) 1
    (by decide) (by decide) ⟨4, rfl, by decide⟩

/-- Witness for claim C1: window 3, width 1, input `0,1,2,...`, after two
edges (`cycle = 2`), `past(s, 1)` reads back sample `inp 1`. -/
theorem past_query_correct_witness :
    (past 1 3 1).isRaised = false ∧
      qNum (past 1 3 1) (reach ⟨1, 3, true, false⟩ (fun m => m) 2) 0 =
        (fun m => m) ((reach ⟨1, 3, true, false⟩ (fun m => m) 2).cycle - 1) % 2 ^ 1 :=
  past_query_correct ⟨1, 3, true, false⟩ (fun m => m) 1
    (reach ⟨1, 3, true, false⟩ (fun m => m) 2) 0 (by decide) rfl (by decide)
    ⟨2, rfl, by decide⟩ (by decide)

end History
